import Mathlib

/-!
# Verification of the Git code-modification analyzer (`src/main.py`)

A shallow embedding of the analyzer's core logic in Lean 4, together with
theorems settling the behavioural claims about it.

Modelling conventions:
* Commit timestamps and date bounds are `Int` (order-isomorphic to the
  Python `datetime` comparisons used by the code).
* The compiled case-insensitive author regular expression is abstracted as
  a function `search : String → Bool` standing for
  `author_pattern.search(name)`'s truthiness; regular-expression
  compilation itself is abstracted as `compile : String → Option (String → Bool)`
  standing for `re.compile(pattern, re.IGNORECASE)`, which returns a
  matcher or raises `re.error`.
* Python dictionaries with insertion order (`file_stats`,
  `commit.stats.files`) are association lists `List (String × FileChange)`.
* Python truthiness of optional arguments (`if file_paths:`,
  `if auth_token ...`, `elif username and password:`) is modelled exactly:
  `None` and the empty string / empty list are falsy.
-/

/-- Per-file change counts, the `{'insertions': _, 'deletions': _}` dict. -/
structure FileChange where
  insertions : Nat
  deletions : Nat
deriving DecidableEq, Repr

/-- A commit as the analyzer reads it from GitPython: author display name,
committed timestamp, the per-file change map `commit.stats.files`, and the
total convenience view `commit.stats.total`. -/
structure Commit where
  authorName : String
  committedDate : Int
  files : List (String × FileChange)
  totalInsertions : Nat
  totalDeletions : Nat
deriving DecidableEq, Repr

/-- Whether `needle` occurs contiguously inside `hay`. -/
def listInfix (needle : List Char) : List Char → Bool
  | [] => needle.isEmpty
  | c :: rest => needle.isPrefixOf (c :: rest) || listInfix needle rest

/-- Python substring containment `needle in hay` on strings. -/
def strContainsSub (hay needle : String) : Bool :=
  listInfix needle.toList hay.toList

/-- `file_path.replace('*', '')`: removing every `*` character
(Python `str.replace` with the single-character pattern `'*'`). -/
def removeStars (s : String) : String :=
  String.mk (s.toList.filter (fun ch => ch ≠ '*'))

/-- Lines 134-139 of `src/main.py`: `date_in_range` starts `True`, is set
`False` when a present `start_date` exceeds the commit date, and set
`False` when a present `end_date` is below it. -/
def dateInRange (startDate endDate : Option Int) (d : Int) : Bool :=
  let r1 := match startDate with
    | some s => !(d < s)
    | none => true
  let r2 := match endDate with
    | some e => !(d > e)
    | none => true
  r1 && r2

/-- Line 142 of `src/main.py`: a commit is matched when
`author_pattern.search(commit.author.name)` is truthy and `date_in_range`. -/
def commitMatches (search : String → Bool) (startDate endDate : Option Int)
    (c : Commit) : Bool :=
  search c.authorName && dateInRange startDate endDate c.committedDate

/-- Lines 150-155 of `src/main.py`: `is_wildcard = '*' in file_path`; a
wildcard entry matches when `file_path.replace('*','') in changed_file`,
an exact entry when `file_path == changed_file`. -/
def fileMatchesFilter (filterEntry changedFile : String) : Bool :=
  let is_wildcard := filterEntry.toList.contains '*'
  if is_wildcard then
    strContainsSub changedFile (removeStars filterEntry)
  else
    filterEntry == changedFile

/-- The mutable aggregation state of the traversal loop:
`total_additions`, `total_deletions`, `file_stats`. -/
structure AggState where
  totalAdditions : Nat
  totalDeletions : Nat
  fileStats : List (String × FileChange)
deriving DecidableEq, Repr

/-- Lines 160-166 / 175-181 of `src/main.py`: insert the key with
zero-initialised counters when absent (appending, as Python dicts keep
insertion order), then `+=` the insertions and deletions. -/
def updateFileStats : List (String × FileChange) → String → Nat → Nat →
    List (String × FileChange)
  | [], f, ins, del => [(f, ⟨ins, del⟩)]
  | (g, fc) :: rest, f, ins, del =>
    if g = f then
      (g, ⟨fc.insertions + ins, fc.deletions + del⟩) :: rest
    else
      (g, fc) :: updateFileStats rest f ins del

/-- Lookup of a key's accumulated counters in `file_stats` (first match,
the association list keeps keys unique), defaulting to zero-initialised
counters for an absent key. -/
def statsFor : List (String × FileChange) → String → FileChange
  | [], _ => ⟨0, 0⟩
  | (g, fc) :: rest, f => if g = f then fc else statsFor rest f

/-- The body of the inner loop over `commit.stats.files.items()` for one
filter entry (lines 152-166 of `src/main.py`). -/
def filterStep (fp : String) (st : AggState) (p : String × FileChange) :
    AggState :=
  if fileMatchesFilter fp p.1 then
    { totalAdditions := st.totalAdditions + p.2.insertions
      totalDeletions := st.totalDeletions + p.2.deletions
      fileStats := updateFileStats st.fileStats p.1 p.2.insertions p.2.deletions }
  else st

/-- Lines 146-166 of `src/main.py`: with a file filter, loop over the
filter entries and, nested, over the commit's changed files. -/
def processCommitFiltered (filePaths : List String) (c : Commit)
    (st : AggState) : AggState :=
  filePaths.foldl (fun st fp => c.files.foldl (filterStep fp) st) st

/-- The body of the per-file loop of the unfiltered branch
(lines 174-181 of `src/main.py`). -/
def unfilteredStep (st : AggState) (p : String × FileChange) : AggState :=
  { st with
    fileStats := updateFileStats st.fileStats p.1 p.2.insertions p.2.deletions }

/-- Lines 167-181 of `src/main.py`: without a file filter, add
`commit.stats.total` to the global counters and each changed file's counts
to `file_stats`. -/
def processCommitUnfiltered (c : Commit) (st : AggState) : AggState :=
  let st1 : AggState :=
    { st with
      totalAdditions := st.totalAdditions + c.totalInsertions
      totalDeletions := st.totalDeletions + c.totalDeletions }
  c.files.foldl unfilteredStep st1

/-- Python truthiness of the `file_paths` argument (`if file_paths:`):
`None` and the empty list are falsy. -/
def filePathsGiven : Option (List String) → Bool
  | none => false
  | some [] => false
  | some (_ :: _) => true

/-- One iteration of the main loop (lines 130-181 of `src/main.py`):
unmatched commits leave the state untouched; a matched commit is appended
to `commits_by_author` and aggregated through the filtered or unfiltered
branch according to `if file_paths:`. -/
def commitStep (search : String → Bool) (startDate endDate : Option Int)
    (filePaths : Option (List String)) (acc : List Commit × AggState)
    (c : Commit) : List Commit × AggState :=
  if commitMatches search startDate endDate c then
    (acc.1 ++ [c],
      if filePathsGiven filePaths then
        processCommitFiltered (filePaths.getD []) c acc.2
      else
        processCommitUnfiltered c acc.2)
  else acc

/-- The whole traversal loop: fold `commitStep` over the branch history in
traversal order, starting from empty statistics. Returns
(`commits_by_author`, final aggregation state). -/
def traverseCommits (search : String → Bool) (startDate endDate : Option Int)
    (filePaths : Option (List String)) (commits : List Commit) :
    List Commit × AggState :=
  commits.foldl (commitStep search startDate endDate filePaths)
    ([], ⟨0, 0, []⟩)

/-- The result dictionary built at lines 183-195 of `src/main.py`
(date-formatting kept as the raw timestamps of the first/last matched
commits; the repository field is omitted as no claim concerns it). -/
structure AnalysisResult where
  author : String
  total_commits : Nat
  lines_added : Nat
  lines_deleted : Nat
  total_lines_modified : Nat
  file_stats : List (String × FileChange)
  first_commit_date : Option Int
  last_commit_date : Option Int
deriving DecidableEq, Repr

/-- The traversal-and-assembly part of `get_author_modifications`
(lines 120-197 of `src/main.py`), after the repository has been opened,
the pattern compiled and the branch resolved: run the loop and package the
result. `first_commit_date` comes from `commits_by_author[-1]` (oldest,
newest-first traversal), `last_commit_date` from `commits_by_author[0]`. -/
def get_author_modifications (search : String → Bool) (authorName : String)
    (startDate endDate : Option Int) (filePaths : Option (List String))
    (commits : List Commit) : AnalysisResult :=
  let r := traverseCommits search startDate endDate filePaths commits
  { author := authorName
    total_commits := r.1.length
    lines_added := r.2.totalAdditions
    lines_deleted := r.2.totalDeletions
    total_lines_modified := r.2.totalAdditions + r.2.totalDeletions
    file_stats := r.2.fileStats
    first_commit_date := r.1.getLast?.map (fun c => c.committedDate)
    last_commit_date := r.1.head?.map (fun c => c.committedDate) }

/-- The fixed fallback chain tried at line 107 of `src/main.py`. -/
def altBranches : List String := ["main", "master", "develop", "dev"]

/-- The `for alt_branch in [...] if alt_branch in available_branches`
loop: the first name of the chain present in the branch list. -/
def firstAlt : List String → List String → Option String
  | [], _ => none
  | a :: rest, avail => if avail.contains a then some a else firstAlt rest avail

/-- Branch resolution, lines 104-118 of `src/main.py`. Returns the branch
analysed together with a flag recording whether a fallback substitution
was applied (each fallback branch of the code prints a substitution
message); `.error` is the returned `{"error": "No branches found..."}`. -/
def resolveBranch (branch : String) (available : List String) :
    Except String (String × Bool) :=
  if available.contains branch then
    .ok (branch, false)
  else
    match firstAlt altBranches available with
    | some a => .ok (a, true)
    | none =>
      match available with
      | [] => .error "No branches found in repository"
      | b :: _ => .ok (b, true)

/-- The branch-fallback policy as the spec words it, for comparison with
`resolveBranch`: the first of `main`, `master`, `develop`, `dev` (fixed
order) that exists, else the repository's first branch in listing order,
else the "no branches" error; every substitution is reported (`true`). -/
def specBranchFallback (available : List String) :
    Except String (String × Bool) :=
  match altBranches.find? (fun a => available.contains a) with
  | some a => .ok (a, true)
  | none =>
    match available with
    | [] => .error "No branches found in repository"
    | b :: _ => .ok (b, true)

/-- Python truthiness of an optional string argument
(`None` and `''` are falsy). -/
def optTruthy : Option String → Bool
  | none => false
  | some s => s ≠ ""

/-- Model of `urllib.parse.urlparse(url).netloc` for `scheme://host/path`
URLs: the characters after the first `://` up to the next `/` (empty when
the URL has no `://`). -/
def afterSchemeSep : List Char → Option (List Char)
  | [] => none
  | ':' :: '/' :: '/' :: rest => some rest
  | _ :: rest => afterSchemeSep rest

/-- See `afterSchemeSep`. -/
def extractNetloc (url : String) : String :=
  match afterSchemeSep url.toList with
  | some rest => String.mk (rest.takeWhile (fun ch => ch ≠ '/'))
  | none => ""

/-- Python `str.replace` on character lists: scan left to right, replace
non-overlapping occurrences of `pat` by `rep`. For the empty pattern,
`rep` is inserted before every character and at the end, as in Python.
The fuel argument (instantiated with the string length) only makes the
recursion structural; each step consumes at least one character. -/
def pyReplaceFuel (pat rep : List Char) : Nat → List Char → List Char
  | _, [] => if pat = [] then rep else []
  | 0, s => s
  | fuel + 1, c :: rest =>
    if pat = [] then
      rep ++ c :: pyReplaceFuel pat rep fuel rest
    else if pat.isPrefixOf (c :: rest) then
      rep ++ pyReplaceFuel pat rep fuel (List.drop pat.length (c :: rest))
    else
      c :: pyReplaceFuel pat rep fuel rest

/-- Python `url.replace(old, new)` on strings. -/
def pyReplace (s pat rep : String) : String :=
  String.mk (pyReplaceFuel pat.toList rep.toList s.toList.length s.toList)

/-- Lines 42-51 of `src/main.py` (`clone_repository`): the clone URL.
`if auth_token and 'github.com' in url:` replace `https://` with
`https://{token}@`; `elif username and password:` replace the netloc with
`{username}:{password}@{netloc}`; otherwise the URL is used unchanged. -/
def buildCloneUrl (url : String) (authToken username password : Option String) :
    String :=
  if optTruthy authToken && strContainsSub url "github.com" then
    pyReplace url "https://" ("https://" ++ authToken.getD "" ++ "@")
  else if optTruthy username && optTruthy password then
    let netloc := extractNetloc url
    pyReplace url netloc (username.getD "" ++ ":" ++ password.getD "" ++ "@" ++ netloc)
  else
    url

/-- The observable outcome of `get_author_modifications`: a statistics
dictionary, a returned `{"error": msg}` dictionary (a structured
result-level error), or a raised exception escaping the function. -/
inductive AnalysisOutcome where
  | ok (r : AnalysisResult)
  | errorResult (msg : String)
  | raised (msg : String)
deriving DecidableEq, Repr

/-- Whether an outcome is a structured result-level error
(a returned `{"error": msg}` dictionary). -/
def isErrorResult : AnalysisOutcome → Bool
  | .errorResult _ => true
  | _ => false

/-- `get_author_modifications` from the point where the repository is
already open (lines 98-197 of `src/main.py`): compile the author pattern
(line 99, not wrapped in any `try` — a `re.error` escapes the function as
a raised exception), resolve the branch (a missing-branch chain that
bottoms out returns the `{"error": ...}` dictionary), then traverse the
resolved branch's history and assemble the result. `compile` abstracts
`re.compile(pattern, re.IGNORECASE)`; `history` is the commit sequence of
the resolved branch. -/
def runAnalysis (compile : String → Option (String → Bool))
    (authorName : String) (branch : String) (available : List String)
    (startDate endDate : Option Int) (filePaths : Option (List String))
    (history : List Commit) : AnalysisOutcome :=
  match compile authorName with
  | none => .raised ("re.error: bad pattern " ++ authorName)
  | some search =>
    match resolveBranch branch available with
    | .error msg => .errorResult msg
    | .ok _ =>
      .ok (get_author_modifications search authorName startDate endDate
        filePaths history)

/-- Sum of the per-file insertion counters of a `file_stats` map. -/
def insSum (fs : List (String × FileChange)) : Nat :=
  (fs.map (fun p => p.2.insertions)).sum

/-- Sum of the per-file deletion counters of a `file_stats` map. -/
def delSum (fs : List (String × FileChange)) : Nat :=
  (fs.map (fun p => p.2.deletions)).sum

/-- Total insertions recorded in a change map for one file key. -/
def keyInsSum (cf : String) (files : List (String × FileChange)) : Nat :=
  ((files.filter (fun p => p.1 == cf)).map (fun p => p.2.insertions)).sum

/-- Total deletions recorded in a change map for one file key. -/
def keyDelSum (cf : String) (files : List (String × FileChange)) : Nat :=
  ((files.filter (fun p => p.1 == cf)).map (fun p => p.2.deletions)).sum

/-- A one-commit fixture history: Alice touches `a.py`, 3 insertions and
1 deletion. -/
def exCommit : Commit :=
  { authorName := "Alice"
    committedDate := 0
    files := [("a.py", ⟨3, 1⟩)]
    totalInsertions := 3
    totalDeletions := 1 }

/-! ## Helper lemmas -/

theorem isPrefixOf_eq_true (n : List Char) :
    ∀ h : List Char, n.isPrefixOf h = true ↔ ∃ r, h = n ++ r := by
  induction n with
  | nil => intro h; simp [List.isPrefixOf]
  | cons a as ih =>
    intro h
    cases h with
    | nil => simp [List.isPrefixOf]
    | cons b bs =>
      simp only [List.isPrefixOf, Bool.and_eq_true, beq_iff_eq, ih,
        List.cons_append, List.cons.injEq]
      constructor
      · rintro ⟨rfl, r, rfl⟩
        exact ⟨r, rfl, rfl⟩
      · rintro ⟨r, rfl, rfl⟩
        exact ⟨rfl, r, rfl⟩

theorem listInfix_iff (n : List Char) :
    ∀ h : List Char, listInfix n h = true ↔ ∃ l r, h = l ++ n ++ r := by
  intro h
  induction h with
  | nil =>
    simp only [listInfix, List.isEmpty_iff]
    constructor
    · rintro rfl
      exact ⟨[], [], rfl⟩
    · rintro ⟨l, r, hl⟩
      rcases List.append_eq_nil.mp ((List.append_eq_nil.mp hl.symm).1) with ⟨_, h2⟩
      exact h2
  | cons c rest ih =>
    simp only [listInfix, Bool.or_eq_true, ih, isPrefixOf_eq_true]
    constructor
    · rintro (⟨r, hr⟩ | ⟨l, r, hl⟩)
      · exact ⟨[], r, by simpa using hr⟩
      · exact ⟨c :: l, r, by simp [hl]⟩
    · rintro ⟨l, r, hl⟩
      cases l with
      | nil =>
        left
        exact ⟨r, by simpa using hl⟩
      | cons x xs =>
        right
        rcases (List.cons.injEq _ _ _ _).mp (by simpa using hl) with ⟨_, h2⟩
        exact ⟨xs, r, by rw [List.append_assoc]; exact h2⟩

theorem listInfix_nil_left (h : List Char) : listInfix [] h = true := by
  cases h with
  | nil => rfl
  | cons c rest => simp [listInfix, List.isPrefixOf]

theorem foldl_commitStep_fst (search : String → Bool) (sd ed : Option Int)
    (fps : Option (List String)) (commits : List Commit) :
    ∀ acc : List Commit × AggState,
      (commits.foldl (commitStep search sd ed fps) acc).1 =
        acc.1 ++ commits.filter (commitMatches search sd ed) := by
  induction commits with
  | nil => intro acc; simp
  | cons c cs ih =>
    intro acc
    simp only [List.foldl_cons, List.filter_cons]
    rw [ih]
    by_cases h : commitMatches search sd ed c
    · simp [commitStep, h]
    · simp [commitStep, h]

theorem traverseCommits_fst (search : String → Bool) (sd ed : Option Int)
    (fps : Option (List String)) (commits : List Commit) :
    (traverseCommits search sd ed fps commits).1 =
      commits.filter (commitMatches search sd ed) := by
  simpa [traverseCommits] using
    foldl_commitStep_fst search sd ed fps commits ([], ⟨0, 0, []⟩)

/-! ## Claim theorems -/

/-- C1: a commit of the traversed history is counted as matched by
`get_author_modifications` iff the author matcher (the compiled
case-insensitive pattern's `search`, abstracted as a Boolean function)
accepts its author name and its timestamp lies within
`[start_date, end_date]` with both bounds inclusive, an absent bound
imposing no constraint. The matched commits are exactly the filter of the
history by `commitMatches`, and `commitMatches` is equivalent to the
claimed conjunction. -/
theorem c1_matched_iff (search : String → Bool) (sd ed : Option Int)
    (fps : Option (List String)) :
    (∀ commits : List Commit,
        (traverseCommits search sd ed fps commits).1 =
          commits.filter (commitMatches search sd ed)) ∧
    (∀ c : Commit,
        commitMatches search sd ed c = true ↔
          (search c.authorName = true ∧
           (∀ s, sd = some s → s ≤ c.committedDate) ∧
           (∀ e, ed = some e → c.committedDate ≤ e))) := by
  constructor
  · intro commits
    exact traverseCommits_fst search sd ed fps commits
  · intro c
    rcases sd with _ | s <;> rcases ed with _ | e <;>
      simp [commitMatches, dateInRange, Bool.and_eq_true, not_lt]

/-- C6: in every produced result, `total_lines_modified` equals
`lines_added + lines_deleted`; the result field is built from the same two
accumulators, never computed independently. -/
theorem c6_total_lines_invariant (search : String → Bool) (authorName : String)
    (sd ed : Option Int) (fps : Option (List String)) (commits : List Commit) :
    (get_author_modifications search authorName sd ed fps commits).total_lines_modified =
      (get_author_modifications search authorName sd ed fps commits).lines_added +
        (get_author_modifications search authorName sd ed fps commits).lines_deleted := rfl

/-- C4: a filter entry containing `*` matches a changed-file path iff the
entry with all `*` characters removed occurs as a substring of the path; a
filter entry without `*` matches iff it equals the path exactly. In
particular `*.py` matches `src/app.py` but not `src/app.js`, and
`README.md` does not match `docs/README.md`. -/
theorem c4_path_filter_semantics :
    (∀ entry path : String,
        fileMatchesFilter entry path = true ↔
          (if '*' ∈ entry.toList then
            ∃ l r, path.toList = l ++ (removeStars entry).toList ++ r
          else entry = path)) ∧
    fileMatchesFilter "*.py" "src/app.py" = true ∧
    fileMatchesFilter "*.py" "src/app.js" = false ∧
    fileMatchesFilter "README.md" "docs/README.md" = false := by
  refine ⟨?_, by decide, by decide, by decide⟩
  intro entry path
  by_cases hw : '*' ∈ entry.toList
  · rw [if_pos hw]
    have hc : entry.toList.contains '*' = true := by simpa using hw
    simp only [fileMatchesFilter, hc, if_true, strContainsSub]
    exact listInfix_iff _ _
  · rw [if_neg hw]
    simp only [fileMatchesFilter]
    rw [if_neg (by simpa using hw : ¬ (entry.toList.contains '*' = true))]
    exact beq_iff_eq

/-- C10: a filter entry made only of `*` characters (such as `"*"`)
matches every changed-file path, because stripping the stars leaves the
empty string, a substring of every path. -/
theorem c10_star_only_filter (entry : String)
    (h1 : entry.toList ≠ []) (h2 : ∀ ch ∈ entry.toList, ch = '*') :
    ∀ path : String, fileMatchesFilter entry path = true := by
  intro path
  have hcontains : entry.toList.contains '*' = true := by
    cases hl : entry.toList with
    | nil => exact absurd hl h1
    | cons c cs =>
      have hc : c = '*' := h2 c (by rw [hl]; exact List.mem_cons_self c cs)
      simp [hl, hc]
  have hrm : (removeStars entry).toList = [] := by
    show entry.toList.filter (fun ch => ch ≠ '*') = []
    rw [List.filter_eq_nil_iff]
    intro ch hch
    simp [h2 ch hch]
  unfold fileMatchesFilter
  simp only [hcontains, if_true, strContainsSub, hrm]
  exact listInfix_nil_left _

/-- Closed witness for `c10_star_only_filter` at the entry `"*"`. -/
theorem c10_star_only_filter_witness :
    ("*" : String).toList ≠ [] ∧
    fileMatchesFilter "*" "docs/readme.txt" = true :=
  ⟨by decide, c10_star_only_filter "*" (by decide) (by decide) "docs/readme.txt"⟩

/-- C5: when the requested branch is absent from the repository's branch
list, the analysis selects the first of `main`, `master`, `develop`, `dev`
(in that fixed order) present in the list; if none is present it selects
the repository's first branch in listing order; with no branches at all it
returns the "no branches" error; and in every fallback case the
substitution is reported (the `true` flag, line 110 / 116 prints). -/
theorem c5_branch_fallback (branch : String) (available : List String)
    (h : available.contains branch = false) :
    resolveBranch branch available = specBranchFallback available := by
  have hfa : ∀ l : List String,
      firstAlt l available = l.find? (fun a => available.contains a) := by
    intro l
    induction l with
    | nil => rfl
    | cons a rest ih =>
      by_cases ha : available.contains a = true
      · rw [List.find?_cons_of_pos _ ha]
        show (if available.contains a = true then some a
          else firstAlt rest available) = some a
        rw [if_pos ha]
      · rw [List.find?_cons_of_neg _ ha, ← ih]
        show (if available.contains a = true then some a
          else firstAlt rest available) = firstAlt rest available
        rw [if_neg ha]
  unfold resolveBranch specBranchFallback
  rw [if_neg (by simpa using h), hfa]

/-- Closed witness for `c5_branch_fallback`: requesting `feature-x` on a
repository containing only `master` resolves to `master` with the
substitution reported. -/
theorem c5_branch_fallback_witness :
    (["master"] : List String).contains "feature-x" = false ∧
    resolveBranch "feature-x" ["master"] = Except.ok ("master", true) :=
  ⟨by decide, (c5_branch_fallback "feature-x" ["master"] (by decide)).trans rfl⟩

/-- C9: with a file-path filter list, `total_commits` counts every matched
commit even when no changed file satisfies any filter entry: it equals the
length of the history filtered by the author/date predicate alone,
independent of the file filter; consequently (one-commit fixture, filter
`["b.js"]` matching nothing) a result can have `total_commits = 1` with
zero line counts and empty `file_stats`. -/
theorem c9_commit_count_ignores_filters :
    (∀ (search : String → Bool) (authorName : String) (sd ed : Option Int)
        (fps : List String) (commits : List Commit),
        (get_author_modifications search authorName sd ed (some fps)
            commits).total_commits =
          (commits.filter (commitMatches search sd ed)).length) ∧
    ((get_author_modifications (fun _ => true) "Alice" none none
        (some ["b.js"]) [exCommit]).total_commits = 1 ∧
     (get_author_modifications (fun _ => true) "Alice" none none
        (some ["b.js"]) [exCommit]).lines_added = 0 ∧
     (get_author_modifications (fun _ => true) "Alice" none none
        (some ["b.js"]) [exCommit]).lines_deleted = 0 ∧
     (get_author_modifications (fun _ => true) "Alice" none none
        (some ["b.js"]) [exCommit]).file_stats = []) := by
  refine ⟨?_, by decide, by decide, by decide, by decide⟩
  intro search authorName sd ed fps commits
  simp [get_author_modifications, traverseCommits_fst]

/-- C7 counterexample: with a supplied access token and a GitLab URL, the
clone URL is the unchanged source URL, not the URL with the token embedded
in the authority (line 44 of `src/main.py` also requires
`'github.com' in url`), refuting "regardless of which Git-hosting host the
URL points at". -/
theorem c7_counterexample :
    buildCloneUrl "https://gitlab.com/user/repo.git" (some "tok") none none =
      "https://gitlab.com/user/repo.git" ∧
    "https://gitlab.com/user/repo.git" ≠ "https://tok@gitlab.com/user/repo.git" :=
  ⟨by decide, by decide⟩

/-- C7 amended: the token is embedded into the authority only when the URL
contains the substring `github.com`; any other URL is used unchanged even
when a token is supplied. With username and password (and no applicable
token) the netloc is replaced by `username:password@netloc` for any host. -/
theorem c7_amended (url t : String) (ht : t ≠ "") :
    (strContainsSub url "github.com" = true →
      buildCloneUrl url (some t) none none =
        pyReplace url "https://" ("https://" ++ t ++ "@")) ∧
    (strContainsSub url "github.com" = false →
      buildCloneUrl url (some t) none none = url) ∧
    (∀ u p : String, u ≠ "" → p ≠ "" →
      buildCloneUrl url none (some u) (some p) =
        pyReplace url (extractNetloc url)
          (u ++ ":" ++ p ++ "@" ++ extractNetloc url)) := by
  refine ⟨?_, ?_, ?_⟩
  · intro hg
    unfold buildCloneUrl
    rw [if_pos]
    · rfl
    · simp [optTruthy, ht, hg]
  · intro hg
    unfold buildCloneUrl
    rw [if_neg (by simp [hg]), if_neg (by simp [optTruthy])]
  · intro u p hu hp
    unfold buildCloneUrl
    rw [if_neg (by simp [optTruthy]), if_pos (by simp [optTruthy, hu, hp])]
    rfl

/-- Closed witness for `c7_amended`: a GitHub URL with a token gets the
token embedded. -/
theorem c7_amended_witness :
    ("tok" : String) ≠ "" ∧
    strContainsSub "https://github.com/u/r.git" "github.com" = true ∧
    buildCloneUrl "https://github.com/u/r.git" (some "tok") none none =
      "https://tok@github.com/u/r.git" := by
  refine ⟨by decide, by decide, ?_⟩
  exact ((c7_amended "https://github.com/u/r.git" "tok" (by decide)).1
    (by decide)).trans (by decide)

/-- Abstraction of `re.compile` in an environment where the given author
pattern (for example `"("`) fails to compile: no matcher is produced and
`re.error` is raised. -/
def failingCompile : String → Option (String → Bool) := fun _ => none

/-- C8 counterexample: with a pattern whose compilation fails (modelled by
`failingCompile` at the pattern `"("`), the analysis outcome is a raised
exception escaping `get_author_modifications` — line 99 of `src/main.py`
is not wrapped in any `try` — and not a structured result-level
`{"error": ...}` dictionary, refuting the propagation half of the claim. -/
theorem c8_counterexample :
    runAnalysis failingCompile "(" "main" ["main"] none none none [] =
      AnalysisOutcome.raised ("re.error: bad pattern " ++ "(") ∧
    isErrorResult
      (runAnalysis failingCompile "(" "main" ["main"] none none none []) =
      false :=
  ⟨rfl, rfl⟩

/-- C8 amended: an author pattern that fails to compile makes the analysis
fail before any commit traversal begins (the outcome is independent of the
branch history), but the failure propagates as a raised exception out of
`get_author_modifications` — caught only by the CLI front end's generic
handler — not as a structured result-level error. -/
theorem c8_amended (compile : String → Option (String → Bool))
    (pat : String) (hbad : compile pat = none) (branch : String)
    (available : List String) (sd ed : Option Int)
    (fps : Option (List String)) (history otherHistory : List Commit) :
    runAnalysis compile pat branch available sd ed fps history =
      AnalysisOutcome.raised ("re.error: bad pattern " ++ pat) ∧
    runAnalysis compile pat branch available sd ed fps history =
      runAnalysis compile pat branch available sd ed fps otherHistory ∧
    isErrorResult
      (runAnalysis compile pat branch available sd ed fps history) = false := by
  unfold runAnalysis
  rw [hbad]
  exact ⟨rfl, rfl, rfl⟩

/-- Closed witness for `c8_amended` at the pattern `"("`. -/
theorem c8_amended_witness :
    failingCompile "(" = none ∧
    runAnalysis failingCompile "(" "main" ["master"] none none none [exCommit] =
      AnalysisOutcome.raised ("re.error: bad pattern " ++ "(") :=
  ⟨rfl, (c8_amended failingCompile "(" rfl "main" ["master"] none none none
    [exCommit] []).1⟩

theorem statsFor_updateFileStats_self (f : String) (i d : Nat) :
    ∀ fs : List (String × FileChange),
      statsFor (updateFileStats fs f i d) f =
        ⟨(statsFor fs f).insertions + i, (statsFor fs f).deletions + d⟩ := by
  intro fs
  induction fs with
  | nil => simp [updateFileStats, statsFor]
  | cons p rest ih =>
    rcases p with ⟨g, fc⟩
    by_cases hg : g = f
    · simp [updateFileStats, statsFor, hg]
    · simp [updateFileStats, statsFor, hg, ih]

theorem statsFor_updateFileStats_other (f g' : String) (i d : Nat)
    (hne : g' ≠ f) :
    ∀ fs : List (String × FileChange),
      statsFor (updateFileStats fs f i d) g' = statsFor fs g' := by
  intro fs
  induction fs with
  | nil => simp [updateFileStats, statsFor, Ne.symm hne]
  | cons p rest ih =>
    rcases p with ⟨g, fc⟩
    by_cases hg : g = f
    · subst hg
      simp [updateFileStats, statsFor, Ne.symm hne]
    · simp [updateFileStats, statsFor, hg, ih]

theorem insSum_updateFileStats (f : String) (i d : Nat) :
    ∀ fs : List (String × FileChange),
      insSum (updateFileStats fs f i d) = insSum fs + i := by
  intro fs
  induction fs with
  | nil => simp [updateFileStats, insSum]
  | cons p rest ih =>
    rcases p with ⟨g, fc⟩
    by_cases hg : g = f <;> simp [updateFileStats, insSum, hg] <;>
      simp [insSum] at ih <;> omega

theorem delSum_updateFileStats (f : String) (i d : Nat) :
    ∀ fs : List (String × FileChange),
      delSum (updateFileStats fs f i d) = delSum fs + d := by
  intro fs
  induction fs with
  | nil => simp [updateFileStats, delSum]
  | cons p rest ih =>
    rcases p with ⟨g, fc⟩
    by_cases hg : g = f <;> simp [updateFileStats, delSum, hg] <;>
      simp [delSum] at ih <;> omega

theorem foldl_unfilteredStep (files : List (String × FileChange)) :
    ∀ st : AggState,
      (files.foldl unfilteredStep st).totalAdditions = st.totalAdditions ∧
      (files.foldl unfilteredStep st).totalDeletions = st.totalDeletions ∧
      insSum (files.foldl unfilteredStep st).fileStats =
        insSum st.fileStats + (files.map (fun p => p.2.insertions)).sum ∧
      delSum (files.foldl unfilteredStep st).fileStats =
        delSum st.fileStats + (files.map (fun p => p.2.deletions)).sum := by
  induction files with
  | nil => intro st; simp
  | cons p ps ih =>
    intro st
    simp only [List.foldl_cons, List.map_cons, List.sum_cons]
    rcases ih (unfilteredStep st p) with ⟨h1, h2, h3, h4⟩
    refine ⟨by rw [h1]; rfl, by rw [h2]; rfl, ?_, ?_⟩
    · rw [h3]
      show insSum (updateFileStats st.fileStats p.1 p.2.insertions p.2.deletions) +
        _ = _
      rw [insSum_updateFileStats]
      omega
    · rw [h4]
      show delSum (updateFileStats st.fileStats p.1 p.2.insertions p.2.deletions) +
        _ = _
      rw [delSum_updateFileStats]
      omega

theorem processCommitUnfiltered_spec (c : Commit) (st : AggState) :
    (processCommitUnfiltered c st).totalAdditions =
      st.totalAdditions + c.totalInsertions ∧
    (processCommitUnfiltered c st).totalDeletions =
      st.totalDeletions + c.totalDeletions ∧
    insSum (processCommitUnfiltered c st).fileStats =
      insSum st.fileStats + (c.files.map (fun p => p.2.insertions)).sum ∧
    delSum (processCommitUnfiltered c st).fileStats =
      delSum st.fileStats + (c.files.map (fun p => p.2.deletions)).sum := by
  unfold processCommitUnfiltered
  rcases foldl_unfilteredStep c.files
      { st with
        totalAdditions := st.totalAdditions + c.totalInsertions
        totalDeletions := st.totalDeletions + c.totalDeletions } with
    ⟨h1, h2, h3, h4⟩
  exact ⟨h1, h2, h3, h4⟩

theorem foldl_commitStep_none_invariant (search : String → Bool)
    (sd ed : Option Int) (commits : List Commit) :
    ∀ acc : List Commit × AggState,
      insSum acc.2.fileStats = acc.2.totalAdditions →
      delSum acc.2.fileStats = acc.2.totalDeletions →
      (∀ c ∈ commits,
        c.totalInsertions = (c.files.map (fun p => p.2.insertions)).sum ∧
        c.totalDeletions = (c.files.map (fun p => p.2.deletions)).sum) →
      insSum (commits.foldl (commitStep search sd ed none) acc).2.fileStats =
          (commits.foldl (commitStep search sd ed none) acc).2.totalAdditions ∧
      delSum (commits.foldl (commitStep search sd ed none) acc).2.fileStats =
          (commits.foldl (commitStep search sd ed none) acc).2.totalDeletions := by
  induction commits with
  | nil =>
    intro acc h1 h2 _
    exact ⟨h1, h2⟩
  | cons c cs ih =>
    intro acc h1 h2 hcons
    rcases hcons c (List.mem_cons_self c cs) with ⟨hc1, hc2⟩
    simp only [List.foldl_cons]
    apply ih
    · by_cases hm : commitMatches search sd ed c = true
      · rcases processCommitUnfiltered_spec c acc.2 with ⟨g1, _, g3, _⟩
        simp [commitStep, hm, filePathsGiven, g1, g3, h1, hc1]
      · simp [commitStep, hm, h1]
    · by_cases hm : commitMatches search sd ed c = true
      · rcases processCommitUnfiltered_spec c acc.2 with ⟨_, g2, _, g4⟩
        simp [commitStep, hm, filePathsGiven, g2, g4, h2, hc2]
      · simp [commitStep, hm, h2]
    · intro c' hc'
      exact hcons c' (List.mem_cons_of_mem c hc')

/-- C3: with no file-path filter, the sum of the per-file insertions
recorded in `FileStats` equals `lines_added`, and likewise for deletions,
provided each commit's total `{insertions, deletions}` view agrees with
the sum over its per-file change map. -/
theorem c3_filestats_sums_match_totals (search : String → Bool)
    (authorName : String) (sd ed : Option Int) (commits : List Commit)
    (hcons : ∀ c ∈ commits,
      c.totalInsertions = (c.files.map (fun p => p.2.insertions)).sum ∧
      c.totalDeletions = (c.files.map (fun p => p.2.deletions)).sum) :
    insSum (get_author_modifications search authorName sd ed none
        commits).file_stats =
      (get_author_modifications search authorName sd ed none
        commits).lines_added ∧
    delSum (get_author_modifications search authorName sd ed none
        commits).file_stats =
      (get_author_modifications search authorName sd ed none
        commits).lines_deleted := by
  have h := foldl_commitStep_none_invariant search sd ed commits
    ([], ⟨0, 0, []⟩) rfl rfl hcons
  exact h

/-- Closed witness for `c3_filestats_sums_match_totals` on the one-commit
fixture history. -/
theorem c3_filestats_sums_match_totals_witness :
    (∀ c ∈ [exCommit],
      c.totalInsertions = (c.files.map (fun p => p.2.insertions)).sum ∧
      c.totalDeletions = (c.files.map (fun p => p.2.deletions)).sum) ∧
    insSum (get_author_modifications (fun _ => true) "Alice" none none none
        [exCommit]).file_stats =
      (get_author_modifications (fun _ => true) "Alice" none none none
        [exCommit]).lines_added :=
  ⟨by decide,
    (c3_filestats_sums_match_totals (fun _ => true) "Alice" none none
      [exCommit] (by decide)).1⟩

theorem foldl_filterStep_totals (fp : String)
    (files : List (String × FileChange)) :
    ∀ st : AggState,
      (files.foldl (filterStep fp) st).totalAdditions =
        st.totalAdditions + (files.map (fun p =>
          if fileMatchesFilter fp p.1 then p.2.insertions else 0)).sum ∧
      (files.foldl (filterStep fp) st).totalDeletions =
        st.totalDeletions + (files.map (fun p =>
          if fileMatchesFilter fp p.1 then p.2.deletions else 0)).sum := by
  induction files with
  | nil => intro st; simp
  | cons p ps ih =>
    intro st
    simp only [List.foldl_cons, List.map_cons, List.sum_cons]
    rcases ih (filterStep fp st p) with ⟨h1, h2⟩
    by_cases hm : fileMatchesFilter fp p.1 = true
    · constructor
      · rw [h1]
        simp [filterStep, hm]
        omega
      · rw [h2]
        simp [filterStep, hm]
        omega
    · constructor
      · rw [h1]
        simp [filterStep, hm]
      · rw [h2]
        simp [filterStep, hm]

theorem foldl_filterStep_statsFor (fp cf : String)
    (files : List (String × FileChange)) :
    ∀ st : AggState,
      statsFor (files.foldl (filterStep fp) st).fileStats cf =
        if fileMatchesFilter fp cf then
          ⟨(statsFor st.fileStats cf).insertions + keyInsSum cf files,
           (statsFor st.fileStats cf).deletions + keyDelSum cf files⟩
        else statsFor st.fileStats cf := by
  induction files with
  | nil =>
    intro st
    by_cases h : fileMatchesFilter fp cf = true <;>
      simp [keyInsSum, keyDelSum, h]
  | cons p ps ih =>
    intro st
    simp only [List.foldl_cons]
    rw [ih (filterStep fp st p)]
    by_cases hp : p.1 = cf
    · have hkins : keyInsSum cf (p :: ps) = p.2.insertions + keyInsSum cf ps := by
        simp [keyInsSum, List.filter_cons, hp]
      have hkdel : keyDelSum cf (p :: ps) = p.2.deletions + keyDelSum cf ps := by
        simp [keyDelSum, List.filter_cons, hp]
      by_cases hm : fileMatchesFilter fp cf = true
      · have hmp : fileMatchesFilter fp p.1 = true := by rw [hp]; exact hm
        have hupd : statsFor (filterStep fp st p).fileStats cf =
            ⟨(statsFor st.fileStats cf).insertions + p.2.insertions,
             (statsFor st.fileStats cf).deletions + p.2.deletions⟩ := by
          simp only [filterStep, hmp, if_true]
          show statsFor
            (updateFileStats st.fileStats p.1 p.2.insertions p.2.deletions) cf = _
          rw [hp, statsFor_updateFileStats_self]
        simp [hm, hupd, hkins, hkdel, Nat.add_assoc]
      · have hmp : fileMatchesFilter fp p.1 = false := by
          rw [hp]
          exact Bool.not_eq_true _ ▸ (Bool.eq_false_iff.mpr hm)
        rw [if_neg hm, if_neg hm]
        simp [filterStep, hmp]
    · have hkins : keyInsSum cf (p :: ps) = keyInsSum cf ps := by
        simp [keyInsSum, List.filter_cons, hp]
      have hkdel : keyDelSum cf (p :: ps) = keyDelSum cf ps := by
        simp [keyDelSum, List.filter_cons, hp]
      have hst : statsFor (filterStep fp st p).fileStats cf =
          statsFor st.fileStats cf := by
        by_cases hm : fileMatchesFilter fp p.1 = true
        · simp only [filterStep, hm, if_true]
          show statsFor
            (updateFileStats st.fileStats p.1 p.2.insertions p.2.deletions) cf = _
          exact statsFor_updateFileStats_other p.1 cf p.2.insertions
            p.2.deletions (Ne.symm hp) st.fileStats
        · simp [filterStep, hm]
      rw [hst, hkins, hkdel]

theorem processCommitFiltered_statsFor (c : Commit) (cf : String)
    (fps : List String) :
    ∀ st : AggState,
      statsFor (processCommitFiltered fps c st).fileStats cf =
        ⟨(statsFor st.fileStats cf).insertions +
           fps.countP (fun fp => fileMatchesFilter fp cf) * keyInsSum cf c.files,
         (statsFor st.fileStats cf).deletions +
           fps.countP (fun fp => fileMatchesFilter fp cf) * keyDelSum cf c.files⟩ := by
  induction fps with
  | nil => intro st; simp [processCommitFiltered]
  | cons fp fps' ih =>
    intro st
    have e : processCommitFiltered (fp :: fps') c st =
        processCommitFiltered fps' c (c.files.foldl (filterStep fp) st) := rfl
    rw [e, ih, foldl_filterStep_statsFor]
    by_cases hm : fileMatchesFilter fp cf = true
    · rw [if_pos hm]
      simp only [List.countP_cons, hm, if_pos, FileChange.mk.injEq]
      constructor <;> ring
    · rw [if_neg hm]
      simp [List.countP_cons, hm]

theorem processCommitFiltered_totals (c : Commit) (fps : List String) :
    ∀ st : AggState,
      (processCommitFiltered fps c st).totalAdditions =
        st.totalAdditions + (fps.map (fun fp => (c.files.map (fun p =>
          if fileMatchesFilter fp p.1 then p.2.insertions else 0)).sum)).sum ∧
      (processCommitFiltered fps c st).totalDeletions =
        st.totalDeletions + (fps.map (fun fp => (c.files.map (fun p =>
          if fileMatchesFilter fp p.1 then p.2.deletions else 0)).sum)).sum := by
  induction fps with
  | nil => intro st; simp [processCommitFiltered]
  | cons fp fps' ih =>
    intro st
    have e : processCommitFiltered (fp :: fps') c st =
        processCommitFiltered fps' c (c.files.foldl (filterStep fp) st) := rfl
    rw [e]
    rcases ih (c.files.foldl (filterStep fp) st) with ⟨h1, h2⟩
    rcases foldl_filterStep_totals fp c.files st with ⟨g1, g2⟩
    constructor
    · rw [h1, g1]
      simp [Nat.add_assoc]
    · rw [h2, g2]
      simp [Nat.add_assoc]

theorem sum_map_ite_count (pred : String → Bool) (n : Nat) (l : List String) :
    (l.map (fun x => if pred x then n else 0)).sum = l.countP pred * n := by
  induction l with
  | nil => simp
  | cons a as ih =>
    by_cases h : pred a = true
    · simp [h, ih, List.countP_cons, Nat.succ_mul]
      ring
    · simp [h, ih, List.countP_cons]

theorem sum_map_add {α : Type} (g1 g2 : α → Nat) (l : List α) :
    (l.map (fun x => g1 x + g2 x)).sum = (l.map g1).sum + (l.map g2).sum := by
  induction l with
  | nil => simp
  | cons a as ih =>
    simp [ih]
    omega

theorem filtered_total_exchange (fps : List String)
    (files : List (String × FileChange)) (val : (String × FileChange) → Nat) :
    (fps.map (fun fp => (files.map (fun p =>
        if fileMatchesFilter fp p.1 then val p else 0)).sum)).sum =
      (files.map (fun p =>
        fps.countP (fun fp => fileMatchesFilter fp p.1) * val p)).sum := by
  induction files with
  | nil => simp
  | cons p ps ih =>
    simp only [List.map_cons, List.sum_cons]
    rw [← ih, ← sum_map_ite_count (fun fp => fileMatchesFilter fp p.1) (val p) fps,
      ← sum_map_add]

theorem keySums_of_nodup (cf : String) (fc : FileChange) :
    ∀ files : List (String × FileChange),
      (cf, fc) ∈ files → (files.map Prod.fst).Nodup →
      keyInsSum cf files = fc.insertions ∧ keyDelSum cf files = fc.deletions := by
  intro files
  induction files with
  | nil => intro hmem; cases hmem
  | cons p ps ih =>
    intro hmem hnd
    rw [List.map_cons] at hnd
    rcases List.nodup_cons.mp hnd with ⟨hpn, hndt⟩
    rcases List.mem_cons.mp hmem with heq | hmem'
    · have hcf1 : cf = p.1 := congrArg Prod.fst heq
      have hfilter : ps.filter (fun q => q.1 == cf) = [] := by
        rw [List.filter_eq_nil_iff]
        intro q hq
        simp only [beq_iff_eq]
        intro hq1
        rw [hcf1] at hq1
        exact hpn (hq1 ▸ List.mem_map_of_mem Prod.fst hq)
      constructor
      · simp [keyInsSum, List.filter_cons, ← heq, hfilter]
      · simp [keyDelSum, List.filter_cons, ← heq, hfilter]
    · have hp1 : (p.1 == cf) = false := by
        have hcfin : cf ∈ ps.map Prod.fst := by
          have := List.mem_map_of_mem Prod.fst hmem'
          simpa using this
        rw [beq_eq_false_iff_ne]
        intro hcontra
        exact hpn (hcontra ▸ hcfin)
      rcases ih hmem' hndt with ⟨i1, i2⟩
      constructor
      · simpa [keyInsSum, List.filter_cons, hp1] using i1
      · simpa [keyDelSum, List.filter_cons, hp1] using i2

/-- C2: when a file-path filter list is given, processing a matched commit
adds each changed file's insertions and deletions to the global counters
once per filter entry the file satisfies (each file contributes
`countP * counts`), and the file's `FileStats` entry likewise grows by
`k * {insertions, deletions}` where `k` is the number of satisfying filter
entries — the double-counting across overlapping filters. -/
theorem c2_double_counting (fps : List String) (c : Commit) (st : AggState)
    (cf : String) (fc : FileChange) (hmem : (cf, fc) ∈ c.files)
    (hnd : (c.files.map Prod.fst).Nodup) :
    (processCommitFiltered fps c st).totalAdditions =
      st.totalAdditions + (c.files.map (fun p =>
        fps.countP (fun fp => fileMatchesFilter fp p.1) * p.2.insertions)).sum ∧
    (processCommitFiltered fps c st).totalDeletions =
      st.totalDeletions + (c.files.map (fun p =>
        fps.countP (fun fp => fileMatchesFilter fp p.1) * p.2.deletions)).sum ∧
    statsFor (processCommitFiltered fps c st).fileStats cf =
      ⟨(statsFor st.fileStats cf).insertions +
         fps.countP (fun fp => fileMatchesFilter fp cf) * fc.insertions,
       (statsFor st.fileStats cf).deletions +
         fps.countP (fun fp => fileMatchesFilter fp cf) * fc.deletions⟩ := by
  rcases processCommitFiltered_totals c fps st with ⟨h1, h2⟩
  rcases keySums_of_nodup cf fc c.files hmem hnd with ⟨k1, k2⟩
  refine ⟨?_, ?_, ?_⟩
  · rw [h1, filtered_total_exchange fps c.files (fun p => p.2.insertions)]
  · rw [h2, filtered_total_exchange fps c.files (fun p => p.2.deletions)]
  · rw [processCommitFiltered_statsFor, k1, k2]

/-- Closed witness for `c2_double_counting`: the changed file `a.py`
(3 insertions, 1 deletion) satisfies both entries of the filter list
`["*.py", "a*"]`, so it is counted twice: `FileStats["a.py"] = {6, 2}`. -/
theorem c2_double_counting_witness :
    (("a.py", (⟨3, 1⟩ : FileChange)) ∈ exCommit.files ∧
     (exCommit.files.map Prod.fst).Nodup) ∧
    statsFor (processCommitFiltered ["*.py", "a*"] exCommit
      ⟨0, 0, []⟩).fileStats "a.py" = ⟨6, 2⟩ := by
  refine ⟨⟨by decide, by decide⟩, ?_⟩
  have h := (c2_double_counting ["*.py", "a*"] exCommit ⟨0, 0, []⟩ "a.py" ⟨3, 1⟩
    (by decide) (by decide)).2.2
  exact h.trans (by decide)
